import Mathlib

/-!
# hyperbyte-tail: bounded line buffer, highlighting, render tick and page layout

A shallow embedding of the Go packages `internal/tlog`, `internal/highlight`
and `internal/ui`.

Conventions of the embedding

* A Go `string` is a Lean `String`; `strings.Contains` is the infix test on the
  character sequences.
* A Go slice `[]string` is a `List String`; `make` + `copy` of a slice returns
  the same list value.
* The Go map `map[int]string` is a finite partial function `Int → Option String`;
  the two-result lookup `_, ok := m[k]` is `(m k).isSome`, the one-result lookup
  `m[k]` is `(m k).getD ""` (the zero value of `string`).
* `*regexp.Regexp` is `Option (String → Bool)`: `nil` is `none`, and a compiled
  expression is represented by its `MatchString` predicate (package `regexp` is a
  library outside the repository).
* Go `int` values of the page layout are `Int`; they stay within the number of
  views plus the page size, except for the sum `CurrentIndex + dir` of
  `switchFocus`, which is reduced to 64 bits. A slice index out of range
  (a run-time panic) is `none`.
* The mutex and file steps of a `Tailer` method are recorded as a list of
  events in program order, deferred calls last-in first-out at the return.
-/

namespace HyperbyteTail

/-! ## Package `tlog` -/

namespace tlog

/-- The bookmark map `map[int]string`. -/
abbrev BookmarkMap := Int → Option String

/-- The fields of `Tailer` that the buffer operations read or write
(`Tail` and `Mutex` carry no data of their own). -/
structure Tailer where
  Filename : String
  Lines : List String
  Bookmarks : BookmarkMap
  maxLines : Nat

/-- The value `NewTailer` builds before it starts the producer goroutine. -/
def newTailerState (file : String) : Tailer :=
  { Filename := file, Lines := [], Bookmarks := fun _ => none, maxLines := 2000 }

/-- One iteration of the producer goroutine of `NewTailer` (the body between
`Mutex.Lock` and `Mutex.Unlock`): append `line.Text`, then, when the length
exceeds `maxLines`, reslice to `Lines[len(Lines)-maxLines:]`. -/
def producerStep (t : Tailer) (text : String) : Tailer :=
  let appended := t.Lines ++ [text]
  if appended.length > t.maxLines then
    { t with Lines := appended.drop (appended.length - t.maxLines) }
  else
    { t with Lines := appended }

/-- The producer goroutine run over the lines delivered on `t.Lines`, in order. -/
def produce (t : Tailer) (texts : List String) : Tailer :=
  texts.foldl producerStep t

/-- `GetLines`: a copy of the buffered lines. -/
def GetLines (t : Tailer) : List String :=
  t.Lines

/-- `AddBookmark`: `t.Bookmarks[lineNo] = content`. -/
def AddBookmark (t : Tailer) (lineNo : Int) (content : String) : Tailer :=
  { t with Bookmarks := fun k => if k = lineNo then some content else t.Bookmarks k }

/-- `GetBookmarks`: a copy of the bookmark map. -/
def GetBookmarks (t : Tailer) : BookmarkMap :=
  t.Bookmarks

/-- The one-result map lookup `m[k]`, which yields `""` for an absent key. -/
def index (m : BookmarkMap) (k : Int) : String :=
  (m k).getD ""

/-- The loop of `ExportLines`: `filtered` grows by each matching line. -/
def exportLoop (matchString : String → Bool) (filtered : List String) :
    List String → List String
  | [] => filtered
  | l :: rest =>
    if matchString l then exportLoop matchString (filtered ++ [l]) rest
    else exportLoop matchString filtered rest

/-- `ExportLines`: the snapshot itself for a `nil` filter, otherwise the
matching lines collected by the loop. -/
def ExportLines (t : Tailer) (filter : Option (String → Bool)) : List String :=
  let lines := GetLines t
  match filter with
  | none => lines
  | some re => exportLoop re [] lines

/-- The test lines `"line 1"`, `"line 2"`, ... of the capacity scenario. -/
def numberedLine (n : Nat) : String :=
  "line " ++ toString n

end tlog

/-! ## Package `highlight` -/

namespace highlight

/-- Search for `sub` at every start position of `s`. -/
def containsChars (sub : List Char) : List Char → Bool
  | [] => sub.isPrefixOf []
  | c :: cs => sub.isPrefixOf (c :: cs) || containsChars sub cs

/-- `strings.Contains(s, substr)`. -/
def stringsContains (s substr : String) : Bool :=
  containsChars substr.data s.data

/-- `ColorizeLine`: the three keyword tests in source order. -/
def ColorizeLine (line : String) : String :=
  if stringsContains line "ERROR" || stringsContains line "FATAL" then
    "[red]" ++ line ++ "[-]"
  else if stringsContains line "WARN" || stringsContains line "WARNING" then
    "[orange]" ++ line ++ "[-]"
  else if stringsContains line "INFO" then
    "[lightblue]" ++ line ++ "[-]"
  else
    line

/-- The substring relation in the usual sense: `s = pre ++ sub ++ post`. -/
def HasSubstring (s sub : String) : Prop :=
  ∃ pre post : String, s = pre ++ sub ++ post

end highlight

/-! ## Lock and file events of `tlog` -/

namespace tlog

/-- The steps of a `Tailer` method that touch the mutex or the file system, in
program order. `WriteString` is the call on the `bufio.Writer` wrapped around
the created file. -/
inductive Event where
  | Lock
  | Unlock
  | Create (path : String)
  | WriteString (s : String)
  | Flush
  | Close
  deriving DecidableEq, Repr

/-- The outcomes of the file-system calls of one run of `SaveBookmarks`:
whether `os.Create` fails, which of the successive `WriteString` calls fail,
and whether `Flush` fails. -/
structure FileOutcome where
  createFails : Bool
  writeFails : Nat → Bool
  flushFails : Bool

/-- Events of `GetLines`: lock, copy, deferred unlock. -/
def GetLinesEvents (_t : Tailer) : List Event :=
  [Event.Lock, Event.Unlock]

/-- Events of `ExportLines`: those of its call to `GetLines`; the `nil` test and
the filter loop touch neither the mutex nor a file. -/
def ExportLinesEvents (t : Tailer) (_filter : Option (String → Bool)) : List Event :=
  GetLinesEvents t

/-- The `range t.Bookmarks` loop of `SaveBookmarks` over the entries in the
order the run yields them; `k` counts the `WriteString` calls made so far.
The result is the events of the loop and whether it returned an error. -/
def saveLoop (quoteMeta : String → String) (fs : FileOutcome) :
    Nat → List (Int × String) → List Event × Bool
  | _, [] => ([], false)
  | k, (_, content) :: rest =>
    let ev := Event.WriteString (quoteMeta content ++ "\n")
    if fs.writeFails k then ([ev], true)
    else
      let r := saveLoop quoteMeta fs (k + 1) rest
      (ev :: r.1, r.2)

/-- `SaveBookmarks(path)`: the events of one run and whether it returns a
non-nil error. `entries` is the enumeration of `t.Bookmarks` that `range`
yields (Go leaves its order open); `quoteMeta` is `regexp.QuoteMeta`. The
deferred calls run last-in first-out on every return: `f.Close` (deferred only
once `os.Create` has succeeded), then `t.Mutex.Unlock`. -/
def SaveBookmarksEvents (_t : Tailer) (entries : List (Int × String))
    (quoteMeta : String → String) (fs : FileOutcome) (path : String) :
    List Event × Bool :=
  if fs.createFails then
    ([Event.Lock, Event.Create path, Event.Unlock], true)
  else
    let loop := saveLoop quoteMeta fs 0 entries
    if loop.2 then
      ([Event.Lock, Event.Create path] ++ loop.1 ++ [Event.Close, Event.Unlock], true)
    else
      ([Event.Lock, Event.Create path] ++ loop.1
        ++ [Event.Flush, Event.Close, Event.Unlock], fs.flushFails)

/-- File operations, as opposed to mutex operations. -/
def Event.isFileOp : Event → Bool
  | Event.Lock => false
  | Event.Unlock => false
  | _ => true

/-- Scan of an event sequence: `held` tells whether the mutex is held; the
result is `true` when no file operation occurs while it is held. -/
def noFileOpWhileLocked : Bool → List Event → Bool
  | _, [] => true
  | _, Event.Lock :: es => noFileOpWhileLocked true es
  | _, Event.Unlock :: es => noFileOpWhileLocked false es
  | held, _ :: es => !held && noFileOpWhileLocked held es

end tlog

/-! ## Package `ui` -/

namespace ui

open tlog highlight

/-- The marker line written after a bookmarked line. -/
def bookmarkMarker : String :=
  "[green](BOOKMARK)[-]\n"

/-- The inner loop of `loop` over `lines` from index `lineNo` on, with the
contents of the `strings.Builder` so far. -/
def renderLoop (filter : Option (String → Bool)) (bookmarks : BookmarkMap) :
    Nat → List String → String → String
  | _, [], sb => sb
  | lineNo, line :: rest, sb =>
    let skip :=
      match filter with
      | none => false
      | some re => !re line
    if skip then renderLoop filter bookmarks (lineNo + 1) rest sb
    else
      let sb1 := sb ++ ColorizeLine line
      let sb2 := sb1 ++ "\n"
      let bookmarked := (bookmarks (lineNo : Int)).isSome
      let sb3 := if bookmarked then sb2 ++ bookmarkMarker else sb2
      renderLoop filter bookmarks (lineNo + 1) rest sb3

/-- One pass of `loop` for one panel: nothing for a paused panel, otherwise the
text handed to `SetText`. -/
def renderPanel (paused : Bool) (t : Tailer) (filter : Option (String → Bool)) :
    Option String :=
  if paused then none
  else some (renderLoop filter t.Bookmarks 0 (GetLines t) "")

/-- Whether the active filter keeps a line. -/
def keeps (filter : Option (String → Bool)) (line : String) : Bool :=
  match filter with
  | none => true
  | some re => re line

/-- The text one kept line contributes: the colorized line, a newline, and the
marker line when the index is bookmarked. -/
def lineBlock (bookmarks : BookmarkMap) (p : Nat × String) : String :=
  ColorizeLine p.2 ++ "\n" ++ (if (bookmarks (p.1 : Int)).isSome then bookmarkMarker else "")

/-- Concatenation of a list of strings, left to right. -/
def concat : List String → String
  | [] => ""
  | s :: ss => s ++ concat ss

/-- Reduction of an integer to the range of a 64-bit Go `int`. -/
def wrap64 (x : Int) : Int :=
  (x + 2 ^ 63) % 2 ^ 64 - 2 ^ 63

/-- The navigation state of `AppUI`. `NumViews` is `len(u.TextViews)`, which is
also `len(u.Tailers)`; a text view is named by its index. `TopRow` and
`BottomRow` are the items of the two rows of the grid built by the last
`renderPage`, `Focus` the view given to the last `SetFocus`. -/
structure AppUI where
  NumViews : Nat
  CurrentIndex : Int
  PageSize : Int
  CurrentPage : Int
  NumPages : Int
  TopRow : List Int
  BottomRow : List Int
  Focus : Option Int
  deriving DecidableEq, Repr

/-- The slice lookup `u.TextViews[i]` (and `u.Tailers[i]`): out of range is a
panic. -/
def viewAt (u : AppUI) (i : Int) : Option Int :=
  if 0 ≤ i ∧ i < u.NumViews then some i else none

/-- A guarded `row.AddItem(u.TextViews[i], ...)`. -/
def addItemIf (u : AppUI) (row : List Int) (guard : Bool) (i : Int) : Option (List Int) :=
  if guard then (viewAt u i).map (fun v => row ++ [v]) else some row

/-- `renderPage`. -/
def renderPage (u : AppUI) : Option AppUI := do
  let start := u.CurrentPage * u.PageSize
  let stop0 := start + u.PageSize
  let stop := if stop0 > u.NumViews then (u.NumViews : Int) else stop0
  let top1 ← addItemIf u [] (start < stop) start
  let top2 ← addItemIf u top1 (start + 1 < stop) (start + 1)
  let bottom1 ← addItemIf u [] (start + 2 < stop) (start + 2)
  let bottom2 ← addItemIf u bottom1 (start + 3 < stop) (start + 3)
  let idx := if u.CurrentIndex < start ∨ u.CurrentIndex ≥ stop then start else u.CurrentIndex
  let v ← viewAt u idx
  some { u with TopRow := top2, BottomRow := bottom2, CurrentIndex := idx, Focus := some v }

/-- The page count of `NewAppUI`: `(len(TextViews) + PageSize - 1) / PageSize`
with Go's truncating division. -/
def numPagesOf (numViews : Nat) (pageSize : Int) : Int :=
  Int.tdiv ((numViews : Int) + pageSize - 1) pageSize

/-- The state `NewAppUI` holds when it calls `renderPage`. -/
def initialState (numViews : Nat) : AppUI :=
  { NumViews := numViews, CurrentIndex := 0, PageSize := 4, CurrentPage := 0,
    NumPages := numPagesOf numViews 4, TopRow := [], BottomRow := [], Focus := none }

/-- `NewAppUI` on `numViews` tailers, up to the first `renderPage`. -/
def NewAppUI (numViews : Nat) : Option AppUI :=
  renderPage (initialState numViews)

/-- The key `[` of `bindKeys`: previous page. -/
def prevPage (u : AppUI) : Option AppUI :=
  if u.NumPages > 1 then
    let page0 := u.CurrentPage - 1
    let page := if page0 < 0 then u.NumPages - 1 else page0
    renderPage { u with CurrentPage := page, CurrentIndex := page * u.PageSize }
  else some u

/-- The key `]` of `bindKeys`: next page, with Go's `%`. -/
def nextPage (u : AppUI) : Option AppUI :=
  if u.NumPages > 1 then
    let page := Int.tmod (u.CurrentPage + 1) u.NumPages
    renderPage { u with CurrentPage := page, CurrentIndex := page * u.PageSize }
  else some u

/-- `switchFocus(dir)`. The sum `CurrentIndex + dir` is the one value not
bounded by the number of views, so it is reduced to 64 bits. -/
def switchFocus (u : AppUI) (dir : Int) : Option AppUI :=
  let idx0 := wrap64 (u.CurrentIndex + dir)
  let idx :=
    if idx0 < 0 then (u.NumViews : Int) - 1
    else if idx0 ≥ u.NumViews then 0
    else idx0
  let newPage := if u.PageSize > 0 then Int.tdiv idx u.PageSize else 0
  if newPage ≠ u.CurrentPage then
    renderPage { u with CurrentIndex := idx, CurrentPage := newPage }
  else do
    let v ← viewAt u idx
    some { u with CurrentIndex := idx, Focus := some v }

/-- The navigation operations. -/
inductive NavOp where
  | prevPage
  | nextPage
  | switchFocus (d : Int)
  | renderPage
  deriving DecidableEq, Repr

/-- One navigation operation. -/
def applyOp (u : AppUI) : NavOp → Option AppUI
  | NavOp.prevPage => prevPage u
  | NavOp.nextPage => nextPage u
  | NavOp.switchFocus d => switchFocus u d
  | NavOp.renderPage => renderPage u

/-- A sequence of navigation operations; a panic stops the run. -/
def runOps (u : AppUI) : List NavOp → Option AppUI
  | [] => some u
  | op :: ops => (applyOp u op).bind (fun u1 => runOps u1 ops)

/-- The panels of a page: the items of both rows after `renderPage` with
`CurrentPage = p`. -/
def pagePanels (numViews : Nat) (p : Int) : Option (List Int) :=
  (renderPage { initialState numViews with CurrentPage := p }).map
    (fun u => u.TopRow ++ u.BottomRow)

/-- The layout invariant: the state belongs to `n` views with page size 4 and
the page count of `NewAppUI`, the focused index is a valid index, the page a
valid page, and the focused index lies on the current page. -/
def LayoutInv (n : Nat) (u : AppUI) : Prop :=
  u.NumViews = n ∧ u.PageSize = 4 ∧ u.NumPages = numPagesOf n 4
    ∧ 0 ≤ u.CurrentIndex ∧ u.CurrentIndex < n
    ∧ 0 ≤ u.CurrentPage ∧ u.CurrentPage < u.NumPages
    ∧ u.CurrentPage * 4 ≤ u.CurrentIndex
    ∧ u.CurrentIndex < min (u.CurrentPage * 4 + 4) n

/-- The grid has two `AddItem` places per row; those left out stay empty. -/
def emptySlots (u : AppUI) : Nat :=
  (2 - u.TopRow.length) + (2 - u.BottomRow.length)

end ui

/-! ## Lemmas on the bounded buffer -/

namespace tlog

theorem producerStep_maxLines (t : Tailer) (text : String) :
    (producerStep t text).maxLines = t.maxLines := by
  unfold producerStep
  simp only []
  split <;> rfl

theorem producerStep_Lines (t : Tailer) (text : String) :
    (producerStep t text).Lines
      = (t.Lines ++ [text]).drop ((t.Lines ++ [text]).length - t.maxLines) := by
  unfold producerStep
  simp only []
  split
  · rfl
  · rename_i h
    have h0 : (t.Lines ++ [text]).length - t.maxLines = 0 := by omega
    rw [h0]
    rfl

theorem produce_append (t : Tailer) (xs ys : List String) :
    produce t (xs ++ ys) = produce (produce t xs) ys := by
  simp [produce, List.foldl_append]

theorem produce_maxLines (t : Tailer) (texts : List String) :
    (produce t texts).maxLines = t.maxLines := by
  induction texts generalizing t with
  | nil => rfl
  | cons x xs ih =>
    show (produce (producerStep t x) xs).maxLines = t.maxLines
    rw [ih, producerStep_maxLines]

/-- Dropping the overflow after one more line is the same as dropping it from
the whole history. -/
theorem drop_snoc_drop (C : Nat) (ls : List String) (l : String) :
    ((ls.drop (ls.length - C)) ++ [l]).drop
        (((ls.drop (ls.length - C)) ++ [l]).length - C)
      = (ls ++ [l]).drop ((ls ++ [l]).length - C) := by
  by_cases h : ls.length + 1 ≤ C
  · have h1 : ls.length - C = 0 := by omega
    simp only [h1, List.drop_zero]
  · have hlen : (ls.drop (ls.length - C)).length = C := by
      rw [List.length_drop]; omega
    have e1 : ((ls.drop (ls.length - C)) ++ [l]).length - C = 1 := by
      rw [List.length_append, hlen]; simp
    have e2 : (ls ++ [l]).length - C = (ls.length - C) + 1 := by
      rw [List.length_append]; simp; omega
    rw [e1, e2, ← List.drop_drop]
    congr 1
    rw [List.drop_append_eq_append_drop]
    have e3 : ls.length - C - ls.length = 0 := by omega
    rw [e3, List.drop_zero]

/-- The buffer after any number of producer steps from an empty buffer. -/
theorem produce_Lines (t : Tailer) (ht : t.Lines = []) (texts : List String) :
    (produce t texts).Lines = texts.drop (texts.length - t.maxLines) := by
  induction texts using List.reverseRecOn with
  | nil => simp [produce, ht]
  | append_singleton ls l ih =>
    rw [produce_append]
    show (producerStep (produce t ls) l).Lines = _
    rw [producerStep_Lines, produce_maxLines, ih]
    exact drop_snoc_drop t.maxLines ls l

theorem exportLoop_eq (re : String → Bool) (acc lines : List String) :
    exportLoop re acc lines = acc ++ lines.filter re := by
  induction lines generalizing acc with
  | nil => simp [exportLoop]
  | cons l rest ih =>
    unfold exportLoop
    by_cases h : re l = true
    · simp [h, ih]
    · simp [h, ih]

end tlog

/-! ## Lemmas on substring search -/

namespace highlight

theorem containsChars_iff (sub l : List Char) :
    containsChars sub l = true ↔ sub <:+: l := by
  induction l with
  | nil =>
    simp only [containsChars, List.isPrefixOf_iff_prefix]
    constructor
    · intro h; exact h.isInfix
    · intro h
      have : sub = [] := List.eq_nil_of_infix_nil h
      subst this
      exact List.prefix_refl _
  | cons c cs ih =>
    simp only [containsChars, Bool.or_eq_true, List.isPrefixOf_iff_prefix, ih,
      List.infix_cons_iff]

theorem stringsContains_iff (s sub : String) :
    stringsContains s sub = true ↔ HasSubstring s sub := by
  unfold stringsContains HasSubstring
  rw [containsChars_iff]
  constructor
  · rintro ⟨l1, l2, h⟩
    refine ⟨String.mk l1, String.mk l2, ?_⟩
    apply String.ext
    simp only [String.data_append]
    exact h.symm
  · rintro ⟨pre, post, h⟩
    refine ⟨pre.data, post.data, ?_⟩
    rw [h]
    simp only [String.data_append]

end highlight

/-! ## The claims on `tlog` and `highlight` -/

open tlog highlight

/-- C1. Starting from an empty buffer of capacity `C ≥ 1`, after the producer
step of `NewTailer` has appended the lines `texts` one at a time, `GetLines`
has length `min N C` and is the list of the last `C` appended lines in append
order (`texts` without its first `N - C` lines, so all of `texts` when
`N ≤ C`). With the capacity 2000 of `NewTailer` and the lines `"line 1"` to
`"line 2500"` the buffer is exactly lines 501 to 2500 and `GetLines()[0]` is
`"line 501"`. -/
theorem C1_buffer_holds_last_lines (C : Nat) (_hC : 1 ≤ C) (file : String)
    (texts : List String) :
    (GetLines (produce { newTailerState file with maxLines := C } texts)).length
        = min texts.length C
    ∧ GetLines (produce { newTailerState file with maxLines := C } texts)
        = texts.drop (texts.length - C)
    ∧ (texts.length < C →
        GetLines (produce { newTailerState file with maxLines := C } texts) = texts)
    ∧ GetLines (produce (newTailerState file) ((List.range' 1 2500).map numberedLine))
        = (List.range' 501 2000).map numberedLine
    ∧ (GetLines (produce (newTailerState file) ((List.range' 1 2500).map numberedLine)))[0]?
        = some "line 501" := by
  have key : ∀ (c : Nat) (ls : List String),
      GetLines (produce { newTailerState file with maxLines := c } ls)
        = ls.drop (ls.length - c) := by
    intro c ls
    exact produce_Lines { newTailerState file with maxLines := c } rfl ls
  have scen : GetLines (produce (newTailerState file) ((List.range' 1 2500).map numberedLine))
      = (List.range' 501 2000).map numberedLine := by
    have h := key 2000 ((List.range' 1 2500).map numberedLine)
    have e : ({ newTailerState file with maxLines := 2000 } : Tailer) = newTailerState file := rfl
    rw [e] at h
    have hd : List.drop 500 (List.range' 1 2500) = List.range' 501 2000 := by
      have split : List.range' 1 2500 = List.range' 1 500 ++ List.range' (1 + 1 * 500) 2000 := by
        rw [List.range'_append]
      rw [split]
      exact List.drop_left' (List.length_range' ..)
    have hsub : (2500 : Nat) - 2000 = 500 := by norm_num
    rw [h, List.length_map, List.length_range', ← List.map_drop, hsub, hd]
  refine ⟨?_, key C texts, ?_, scen, ?_⟩
  · rw [key, List.length_drop]; omega
  · intro h
    rw [key]
    have h0 : texts.length - C = 0 := by omega
    rw [h0, List.drop_zero]
  · rw [scen, List.getElem?_map, List.getElem?_range' 501 1 (by norm_num)]
    rfl

/-- Witness of C1 at capacity 2 and three appended lines. -/
theorem C1_buffer_holds_last_lines_witness :
    GetLines (produce { newTailerState "app.log" with maxLines := 2 } ["a", "b", "c"])
      = ["b", "c"] := by
  have h := (C1_buffer_holds_last_lines 2 (by decide) "app.log" ["a", "b", "c"]).2.1
  simpa using h

/-- C2. `ExportLines(filter)` returns exactly the buffered lines the filter
matches, in their original order: it is the order-preserving selection of the
matching lines of `GetLines()`, hence a subsequence of it with the matching
lines as members; for a `nil` filter, and for a filter matching every buffered
line, it is `GetLines()` itself. -/
theorem C2_export_is_ordered_selection (t : Tailer) :
    (∀ re : String → Bool, ExportLines t (some re) = (GetLines t).filter re)
    ∧ (∀ filter : Option (String → Bool), (ExportLines t filter).Sublist (GetLines t))
    ∧ (∀ (re : String → Bool) (l : String),
        l ∈ ExportLines t (some re) ↔ l ∈ GetLines t ∧ re l = true)
    ∧ ExportLines t none = GetLines t
    ∧ (∀ re : String → Bool, (∀ l ∈ GetLines t, re l = true) →
        ExportLines t (some re) = GetLines t)
    ∧ ExportLines t (some (fun _ => true)) = GetLines t := by
  have hf : ∀ re : String → Bool, ExportLines t (some re) = (GetLines t).filter re := by
    intro re
    simp [ExportLines, exportLoop_eq]
  refine ⟨hf, ?_, ?_, rfl, ?_, ?_⟩
  · intro filter
    cases filter with
    | none => exact List.Sublist.refl _
    | some re => rw [hf]; exact List.filter_sublist _
  · intro re l
    rw [hf, List.mem_filter]
  · intro re hall
    rw [hf, List.filter_eq_self]
    exact hall
  · rw [hf, List.filter_eq_self]
    intro _ _
    rfl

/-- C3. After `AddBookmark(i, x)` the map returned by `GetBookmarks()` has `x`
at `i` and is as before at every other index; a second `AddBookmark(i, x)`
leaves `GetBookmarks()` unchanged; on the empty map of `TestBookmarks`,
`AddBookmark(3, "hello")` gives `GetBookmarks()[3] == "hello"`. -/
theorem C3_add_bookmark_is_idempotent_upsert (t : Tailer) (i : Int) (x : String) :
    GetBookmarks (AddBookmark t i x) i = some x
    ∧ index (GetBookmarks (AddBookmark t i x)) i = x
    ∧ (∀ j : Int, j ≠ i → GetBookmarks (AddBookmark t i x) j = GetBookmarks t j)
    ∧ GetBookmarks (AddBookmark (AddBookmark t i x) i x) = GetBookmarks (AddBookmark t i x)
    ∧ GetLines (AddBookmark t i x) = GetLines t
    ∧ index (GetBookmarks (AddBookmark
        { Filename := "", Lines := [], Bookmarks := fun _ => none, maxLines := 0 } 3 "hello")) 3
        = "hello" := by
  refine ⟨?_, ?_, ?_, ?_, rfl, ?_⟩
  · simp [GetBookmarks, AddBookmark]
  · simp [index, GetBookmarks, AddBookmark]
  · intro j hj
    simp [GetBookmarks, AddBookmark, hj]
  · funext k
    simp only [GetBookmarks, AddBookmark]
    split <;> rfl
  · simp [index, GetBookmarks, AddBookmark]

/-- C4. `ColorizeLine(line)` is `"[red]" + line + "[-]"` when the line has the
substring `ERROR` or `FATAL`; otherwise `"[orange]" + line + "[-]"` when it has
`WARN` or `WARNING`; otherwise `"[lightblue]" + line + "[-]"` when it has
`INFO`; otherwise the line itself. The match is case-sensitive (`"error down"`
is unchanged) and a line with keywords of several severities gets the marker of
the highest one only. The three cases of `TestColorizeLine` hold. -/
theorem C4_colorize_by_highest_severity (line : String) :
    (HasSubstring line "ERROR" ∨ HasSubstring line "FATAL" →
        ColorizeLine line = "[red]" ++ line ++ "[-]")
    ∧ (¬ (HasSubstring line "ERROR" ∨ HasSubstring line "FATAL") →
        (HasSubstring line "WARN" ∨ HasSubstring line "WARNING") →
        ColorizeLine line = "[orange]" ++ line ++ "[-]")
    ∧ (¬ (HasSubstring line "ERROR" ∨ HasSubstring line "FATAL") →
        ¬ (HasSubstring line "WARN" ∨ HasSubstring line "WARNING") →
        HasSubstring line "INFO" →
        ColorizeLine line = "[lightblue]" ++ line ++ "[-]")
    ∧ (¬ (HasSubstring line "ERROR" ∨ HasSubstring line "FATAL") →
        ¬ (HasSubstring line "WARN" ∨ HasSubstring line "WARNING") →
        ¬ HasSubstring line "INFO" →
        ColorizeLine line = line)
    ∧ (ColorizeLine "ERROR something bad").take 5 = "[red]"
    ∧ (ColorizeLine "WARN something").take 8 = "[orange]"
    ∧ ColorizeLine "just text" = "just text"
    ∧ ColorizeLine "error down" = "error down"
    ∧ ColorizeLine "INFO retry after WARN and ERROR" = "[red]INFO retry after WARN and ERROR[-]"
    ∧ ColorizeLine "INFO then WARN" = "[orange]INFO then WARN[-]" := by
  refine ⟨?_, ?_, ?_, ?_, by decide, by decide, by decide, by decide, by decide, by decide⟩
  · intro h
    have h1 : (stringsContains line "ERROR" || stringsContains line "FATAL") = true := by
      simpa [Bool.or_eq_true, stringsContains_iff] using h
    simp only [ColorizeLine, h1, if_true]
  · intro hn h
    have h1 : ¬ (stringsContains line "ERROR" || stringsContains line "FATAL") = true := by
      simpa [Bool.or_eq_true, stringsContains_iff] using hn
    have h2 : (stringsContains line "WARN" || stringsContains line "WARNING") = true := by
      simpa [Bool.or_eq_true, stringsContains_iff] using h
    simp [ColorizeLine, h1, h2]
  · intro hn hw h
    have h1 : ¬ (stringsContains line "ERROR" || stringsContains line "FATAL") = true := by
      simpa [Bool.or_eq_true, stringsContains_iff] using hn
    have h2 : ¬ (stringsContains line "WARN" || stringsContains line "WARNING") = true := by
      simpa [Bool.or_eq_true, stringsContains_iff] using hw
    have h3 : stringsContains line "INFO" = true := (stringsContains_iff _ _).2 h
    simp [ColorizeLine, h1, h2, h3]
  · intro hn hw hi
    have h1 : ¬ (stringsContains line "ERROR" || stringsContains line "FATAL") = true := by
      simpa [Bool.or_eq_true, stringsContains_iff] using hn
    have h2 : ¬ (stringsContains line "WARN" || stringsContains line "WARNING") = true := by
      simpa [Bool.or_eq_true, stringsContains_iff] using hw
    have h3 : ¬ stringsContains line "INFO" = true := fun h => hi ((stringsContains_iff _ _).1 h)
    simp [ColorizeLine, h1, h2, h3]

/-! ## The render tick -/

namespace ui

theorem renderLoop_eq (filter : Option (String → Bool)) (bookmarks : BookmarkMap)
    (lineNo : Nat) (lines : List String) (sb : String) :
    renderLoop filter bookmarks lineNo lines sb
      = sb ++ concat (((List.enumFrom lineNo lines).filter (fun p => keeps filter p.2)).map
          (lineBlock bookmarks)) := by
  induction lines generalizing lineNo sb with
  | nil =>
    apply String.ext
    simp [renderLoop, concat]
  | cons line rest ih =>
    unfold renderLoop
    cases filter with
    | none =>
      simp only [keeps, List.enumFrom_cons, List.filter_cons_of_pos, List.map_cons, concat,
        Bool.false_eq_true, if_false]
      rw [ih]
      simp only [keeps, lineBlock]
      apply String.ext
      split <;> simp [String.data_append, List.append_assoc]
    | some re =>
      by_cases h : re line = true
      · simp only [keeps, h, List.enumFrom_cons, List.filter_cons_of_pos, List.map_cons, concat,
          Bool.not_true, Bool.false_eq_true, if_false]
        rw [ih]
        simp only [keeps, lineBlock]
        apply String.ext
        split <;> simp [String.data_append, List.append_assoc]
      · have h2 : re line = false := by simpa using h
        simp only [keeps, h2, List.enumFrom_cons, Bool.not_false, if_true]
        rw [ih]
        simp [keeps, h2]

end ui

open ui

/-- C5. For a panel that is not paused, one render tick produces the
concatenation, in snapshot order, over exactly the lines the active filter
keeps (all lines when there is none), of `ColorizeLine(line) + "\n"` followed
at once by `"[green](BOOKMARK)[-]\n"` exactly when the index of the line in the
unfiltered snapshot is a bookmarked index. With the filter `ERROR` (an
expression that matches the lines with the substring `ERROR`), the buffer
`["INFO ok", "ERROR bad", "WARN maybe"]` and no bookmark the text is
`"[red]ERROR bad[-]\n"`; with no filter and a bookmark at index 1 the marker
line follows the second line. -/
theorem C5_render_tick_text (t : Tailer) (filter : Option (String → Bool)) :
    renderPanel false t filter
      = some (concat (((List.enumFrom 0 (GetLines t)).filter (fun p => keeps filter p.2)).map
          (fun p => ColorizeLine p.2 ++ "\n"
            ++ (if (GetBookmarks t (p.1 : Int)).isSome then "[green](BOOKMARK)[-]\n" else ""))))
    ∧ renderPanel false
        { Filename := "app.log", Lines := ["INFO ok", "ERROR bad", "WARN maybe"],
          Bookmarks := fun _ => none, maxLines := 2000 }
        (some (fun l => stringsContains l "ERROR"))
      = some "[red]ERROR bad[-]\n"
    ∧ renderPanel false
        { Filename := "app.log", Lines := ["INFO ok", "ERROR bad", "WARN maybe"],
          Bookmarks := fun k => if k = 1 then some "ERROR bad" else none, maxLines := 2000 }
        none
      = some "[lightblue]INFO ok[-]\n[red]ERROR bad[-]\n[green](BOOKMARK)[-]\n[orange]WARN maybe[-]\n" := by
  refine ⟨?_, by decide, by decide⟩
  unfold renderPanel
  simp only [Bool.false_eq_true, if_false, renderLoop_eq]
  rfl

/-! ## Lemmas on the page layout -/

namespace ui

theorem addItemIf_eq (u : AppUI) (row : List Int) (guard : Bool) (i : Int)
    (h : guard = true → 0 ≤ i ∧ i < u.NumViews) :
    addItemIf u row guard i = some (if guard then row ++ [i] else row) := by
  unfold addItemIf viewAt
  cases guard with
  | false => simp
  | true => simp [h rfl]

/-- The end of the page, as `renderPage` computes it, is a minimum. -/
theorem stop_eq_min (start ps n : Int) :
    (if start + ps > n then n else start + ps) = min (start + ps) n := by
  split
  · rw [min_eq_right]; omega
  · rw [min_eq_left]; omega

/-- On a page that starts inside the list of views `renderPage` does not panic,
and this is the state it leaves. -/
theorem renderPage_some (u : AppUI) (h4 : u.PageSize = 4) (h0 : 0 ≤ u.CurrentPage)
    (hlt : u.CurrentPage * 4 < u.NumViews) :
    renderPage u = some { u with
      TopRow := (if u.CurrentPage * 4 < min (u.CurrentPage * 4 + 4) u.NumViews
                  then [u.CurrentPage * 4] else [])
                ++ (if u.CurrentPage * 4 + 1 < min (u.CurrentPage * 4 + 4) u.NumViews
                  then [u.CurrentPage * 4 + 1] else [])
      BottomRow := (if u.CurrentPage * 4 + 2 < min (u.CurrentPage * 4 + 4) u.NumViews
                  then [u.CurrentPage * 4 + 2] else [])
                ++ (if u.CurrentPage * 4 + 3 < min (u.CurrentPage * 4 + 4) u.NumViews
                  then [u.CurrentPage * 4 + 3] else [])
      CurrentIndex :=
        if u.CurrentIndex < u.CurrentPage * 4
            ∨ u.CurrentIndex ≥ min (u.CurrentPage * 4 + 4) u.NumViews
        then u.CurrentPage * 4 else u.CurrentIndex
      Focus := some (
        if u.CurrentIndex < u.CurrentPage * 4
            ∨ u.CurrentIndex ≥ min (u.CurrentPage * 4 + 4) u.NumViews
        then u.CurrentPage * 4 else u.CurrentIndex) } := by
  unfold renderPage
  simp only [h4, stop_eq_min]
  have hm : min (u.CurrentPage * 4 + 4) (u.NumViews : Int) ≤ u.NumViews := min_le_right _ _
  have hm2 : u.CurrentPage * 4 < min (u.CurrentPage * 4 + 4) (u.NumViews : Int) := by
    rw [lt_min_iff]; omega
  generalize min (u.CurrentPage * 4 + 4) (u.NumViews : Int) = stop at hm hm2 ⊢
  rw [addItemIf_eq u [] _ _ (by intro h; have := of_decide_eq_true h; omega)]
  simp only [Option.bind_eq_bind, Option.some_bind]
  rw [addItemIf_eq u _ _ _ (by intro h; have := of_decide_eq_true h; omega)]
  simp only [Option.bind_eq_bind, Option.some_bind]
  rw [addItemIf_eq u [] _ _ (by intro h; have := of_decide_eq_true h; omega)]
  simp only [Option.bind_eq_bind, Option.some_bind]
  rw [addItemIf_eq u _ _ _ (by intro h; have := of_decide_eq_true h; omega)]
  simp only [Option.bind_eq_bind, Option.some_bind]
  have hv : viewAt u (if u.CurrentIndex < u.CurrentPage * 4 ∨ u.CurrentIndex ≥ stop
      then u.CurrentPage * 4 else u.CurrentIndex)
      = some (if u.CurrentIndex < u.CurrentPage * 4 ∨ u.CurrentIndex ≥ stop
      then u.CurrentPage * 4 else u.CurrentIndex) := by
    unfold viewAt
    rw [if_pos]
    split <;> omega
  rw [hv]
  simp only [Option.some_bind, decide_eq_true_eq]
  congr 2
  all_goals (split_ifs <;> simp)

theorem numPagesOf_four (n : Nat) : numPagesOf n 4 = ((n : Int) + 3) / 4 := by
  unfold numPagesOf
  rw [Int.tdiv_eq_ediv (by omega) (by omega)]
  have e : (n : Int) + 4 - 1 = n + 3 := by omega
  rw [e]

theorem numPagesOf_ceil (n : Nat) : numPagesOf n 4 = ⌈(n : ℚ) / 4⌉ := by
  rw [numPagesOf_four]
  symm
  rw [Int.ceil_eq_iff]
  have h1 : 4 * (((n : Int) + 3) / 4) ≤ (n : Int) + 3 := by omega
  have h3 : (n : Int) ≤ 4 * (((n : Int) + 3) / 4) := by omega
  have q1 : (4 : ℚ) * ((((n : Int) + 3) / 4 : Int) : ℚ) ≤ (n : ℚ) + 3 := by
    exact_mod_cast h1
  have q3 : (n : ℚ) ≤ 4 * ((((n : Int) + 3) / 4 : Int) : ℚ) := by exact_mod_cast h3
  constructor
  · linarith
  · linarith

/-- The sources of page `k` of `n` sources, in index order. -/
theorem rows_eq_range (k n : Nat) (hlt : 4 * k < n) :
    ((if (k : Int) * 4 < min ((k : Int) * 4 + 4) n then [(k : Int) * 4] else [])
      ++ (if (k : Int) * 4 + 1 < min ((k : Int) * 4 + 4) n then [(k : Int) * 4 + 1] else [])
      = ((List.range' (4 * k) (min (4 * k + 4) n - 4 * k)).map Int.ofNat).take 2)
    ∧ ((if (k : Int) * 4 + 2 < min ((k : Int) * 4 + 4) n then [(k : Int) * 4 + 2] else [])
      ++ (if (k : Int) * 4 + 3 < min ((k : Int) * 4 + 4) n then [(k : Int) * 4 + 3] else [])
      = ((List.range' (4 * k) (min (4 * k + 4) n - 4 * k)).map Int.ofNat).drop 2) := by
  rcases (by omega : n = 4 * k + 1 ∨ n = 4 * k + 2 ∨ n = 4 * k + 3 ∨ 4 * k + 4 ≤ n)
    with h | h | h | h
  · have hc : min (4 * k + 4) n - 4 * k = 1 := by omega
    have hm : min ((k : Int) * 4 + 4) (n : Int) = (k : Int) * 4 + 1 := by omega
    rw [hc, hm]
    constructor
    all_goals simp [List.range']
    all_goals omega
  · have hc : min (4 * k + 4) n - 4 * k = 2 := by omega
    have hm : min ((k : Int) * 4 + 4) (n : Int) = (k : Int) * 4 + 2 := by omega
    rw [hc, hm]
    constructor
    all_goals simp [List.range']
    all_goals omega
  · have hc : min (4 * k + 4) n - 4 * k = 3 := by omega
    have hm : min ((k : Int) * 4 + 4) (n : Int) = (k : Int) * 4 + 3 := by omega
    rw [hc, hm]
    constructor
    all_goals simp [List.range']
    all_goals omega
  · have hc : min (4 * k + 4) n - 4 * k = 4 := by omega
    have hm : min ((k : Int) * 4 + 4) (n : Int) = (k : Int) * 4 + 4 := by omega
    rw [hc, hm]
    constructor
    all_goals simp [List.range']
    all_goals omega

/-- What `renderPage` builds for page `k`. -/
theorem renderPage_layout (u : AppUI) (k : Nat) (h4 : u.PageSize = 4)
    (hk : u.CurrentPage = k) (hlt : 4 * k < u.NumViews) :
    ∃ v, renderPage u = some v
      ∧ v.TopRow
          = ((List.range' (4 * k) (min (4 * k + 4) u.NumViews - 4 * k)).map Int.ofNat).take 2
      ∧ v.BottomRow
          = ((List.range' (4 * k) (min (4 * k + 4) u.NumViews - 4 * k)).map Int.ofNat).drop 2
      ∧ v.NumViews = u.NumViews ∧ v.PageSize = u.PageSize ∧ v.NumPages = u.NumPages
      ∧ v.CurrentPage = u.CurrentPage
      ∧ v.CurrentIndex
          = (if u.CurrentIndex < u.CurrentPage * 4
                ∨ u.CurrentIndex ≥ min (u.CurrentPage * 4 + 4) u.NumViews
             then u.CurrentPage * 4 else u.CurrentIndex)
      ∧ v.Focus = some v.CurrentIndex := by
  have hr := renderPage_some u h4 (by omega) (by omega)
  have hrows := rows_eq_range k u.NumViews hlt
  rw [← hk] at hrows
  exact ⟨_, hr, hrows.1, hrows.2, rfl, rfl, rfl, rfl, rfl, rfl⟩

theorem mem_page_range (k c : Nat) (i : Nat) :
    (i : Int) ∈ (List.range' (4 * k) c).map Int.ofNat ↔ 4 * k ≤ i ∧ i < 4 * k + c := by
  simp [List.mem_range'_1]

theorem pagePanels_eq (n k : Nat) (hlt : 4 * k < n) :
    pagePanels n k
      = some ((List.range' (4 * k) (min (4 * k + 4) n - 4 * k)).map Int.ofNat) := by
  obtain ⟨v, hv, ht, hb, _⟩ :=
    renderPage_layout { initialState n with CurrentPage := k } k rfl rfl hlt
  unfold pagePanels
  rw [hv, Option.map_some', ht, hb, List.take_append_drop]
  rfl

end ui

/-! ## The claims on pagination -/

/-- C6. With page size 4 the page count `NewAppUI` computes for `N` sources is
`⌈N / 4⌉`; for every page `p` below it, `renderPage` puts on the grid exactly
the sources `4p ≤ i < min (4p + 4) N` in index order, the first two in the top
row and the rest in the bottom row, and leaves `4` minus that count places
empty; every source index below `N` is on exactly one page. For `N = 10` there
are 3 pages and page 2 holds sources 8 and 9 and two empty places. -/
theorem C6_pages_partition_sources (N : Nat) :
    (initialState N).NumPages = ⌈(N : ℚ) / 4⌉
    ∧ (∀ p : Nat, (p : Int) < (initialState N).NumPages →
        ∀ u : AppUI, u.NumViews = N → u.PageSize = 4 → u.CurrentPage = p →
          ∃ v, renderPage u = some v
            ∧ v.TopRow ++ v.BottomRow
                = (List.range' (4 * p) (min (4 * p + 4) N - 4 * p)).map Int.ofNat
            ∧ v.TopRow
                = ((List.range' (4 * p) (min (4 * p + 4) N - 4 * p)).map Int.ofNat).take 2
            ∧ v.BottomRow
                = ((List.range' (4 * p) (min (4 * p + 4) N - 4 * p)).map Int.ofNat).drop 2
            ∧ emptySlots v = 4 - (min (4 * p + 4) N - 4 * p))
    ∧ (∀ i : Nat, i < N →
        ∃! p : Nat, (p : Int) < (initialState N).NumPages
          ∧ ∃ panels, pagePanels N p = some panels ∧ (i : Int) ∈ panels)
    ∧ (initialState 10).NumPages = 3
    ∧ pagePanels 10 2 = some [8, 9]
    ∧ (renderPage { initialState 10 with CurrentPage := 2 }).map
        (fun v => (v.TopRow, v.BottomRow, emptySlots v)) = some ([8, 9], [], 2) := by
  have hP : (initialState N).NumPages = ((N : Int) + 3) / 4 := numPagesOf_four N
  refine ⟨numPagesOf_ceil N, ?_, ?_, by decide, by decide, by decide⟩
  · intro p hp u hN h4 hk
    rw [hP] at hp
    have hlt : 4 * p < u.NumViews := by omega
    obtain ⟨v, hv, ht, hb, _⟩ := renderPage_layout u p h4 hk hlt
    rw [hN] at ht hb
    refine ⟨v, hv, ?_, ht, hb, ?_⟩
    · rw [ht, hb, List.take_append_drop]
    · unfold emptySlots
      rw [ht, hb, List.length_take, List.length_drop, List.length_map, List.length_range']
      omega
  · intro i hi
    rw [hP]
    refine ⟨i / 4, ⟨by omega, _, pagePanels_eq N (i / 4) (by omega), ?_⟩, ?_⟩
    · rw [mem_page_range]
      omega
    · rintro q ⟨hq, panels, hpan, hmem⟩
      rw [pagePanels_eq N q (by omega)] at hpan
      cases hpan
      rw [mem_page_range] at hmem
      omega

/-- C7. In a state with `N` views, page size 4, `NumPages = ⌈N / 4⌉` as computed
by `NewAppUI` and a current page `p` in `[0, NumPages)`: when `NumPages > 1`,
the key `]` sets the page to `(p + 1) mod NumPages` and the key `[` sets it to
`(p - 1) mod NumPages` (page 0 goes to `NumPages - 1`), and both set the
focused index to `4 * newPage`, the first panel of that page, which is also the
view given the focus; when `NumPages ≤ 1` both keys leave the state as it is. -/
theorem C7_page_keys_wrap (u : AppUI) (N : Nat) (hN : u.NumViews = N)
    (h4 : u.PageSize = 4) (hP : u.NumPages = numPagesOf N 4)
    (hp : 0 ≤ u.CurrentPage ∧ u.CurrentPage < u.NumPages) :
    u.NumPages = ⌈(N : ℚ) / 4⌉
    ∧ (1 < u.NumPages →
        (∃ v, nextPage u = some v
          ∧ v.CurrentPage = (u.CurrentPage + 1) % u.NumPages
          ∧ v.CurrentIndex = 4 * v.CurrentPage
          ∧ v.Focus = some (4 * v.CurrentPage))
        ∧ (∃ v, prevPage u = some v
          ∧ v.CurrentPage = (u.CurrentPage - 1) % u.NumPages
          ∧ (u.CurrentPage = 0 → v.CurrentPage = u.NumPages - 1)
          ∧ v.CurrentIndex = 4 * v.CurrentPage
          ∧ v.Focus = some (4 * v.CurrentPage)))
    ∧ (u.NumPages ≤ 1 → nextPage u = some u ∧ prevPage u = some u) := by
  have hP4 : u.NumPages = ((N : Int) + 3) / 4 := by rw [hP, numPagesOf_four]
  refine ⟨by rw [hP, numPagesOf_ceil], ?_, ?_⟩
  · intro h1
    constructor
    · -- next page
      have hmod : Int.tmod (u.CurrentPage + 1) u.NumPages = (u.CurrentPage + 1) % u.NumPages :=
        Int.tmod_eq_emod (by omega) (by omega)
      have hnn : 0 ≤ (u.CurrentPage + 1) % u.NumPages := Int.emod_nonneg _ (by omega)
      have hlt : (u.CurrentPage + 1) % u.NumPages < u.NumPages := Int.emod_lt_of_pos _ (by omega)
      generalize hq : (u.CurrentPage + 1) % u.NumPages = q at hmod hnn hlt
      obtain ⟨k, rfl⟩ := Int.eq_ofNat_of_zero_le hnn
      obtain ⟨v, hv, _, _, _, _, _, hpage, hidx, hfoc⟩ :=
        renderPage_layout
          { u with CurrentPage := (k : Int), CurrentIndex := (k : Int) * u.PageSize }
          k h4 rfl (by simp only; omega)
      refine ⟨v, ?_, hpage, ?_, ?_⟩
      · unfold nextPage
        rw [if_pos (by omega)]
        simp only [hmod]
        exact hv
      · rw [hidx, hpage]
        simp only [h4]
        split <;> omega
      · rw [hfoc, hidx, hpage]
        simp only [h4]
        split
        · congr 1; omega
        · congr 1; omega
    · -- previous page
      have hmod : (u.CurrentPage - 1) % u.NumPages
          = if u.CurrentPage - 1 < 0 then u.NumPages - 1 else u.CurrentPage - 1 := by
        split
        · have e : u.CurrentPage - 1 = (u.NumPages - 1) + (-1) * u.NumPages := by omega
          rw [e, Int.add_mul_emod_self]
          exact Int.emod_eq_of_lt (by omega) (by omega)
        · exact Int.emod_eq_of_lt (by omega) (by omega)
      have hnn : 0 ≤ (if u.CurrentPage - 1 < 0 then u.NumPages - 1 else u.CurrentPage - 1) := by
        split <;> omega
      have hlt : (if u.CurrentPage - 1 < 0 then u.NumPages - 1 else u.CurrentPage - 1)
          < u.NumPages := by
        split <;> omega
      have hzero : u.CurrentPage = 0 →
          (if u.CurrentPage - 1 < 0 then u.NumPages - 1 else u.CurrentPage - 1)
            = u.NumPages - 1 := by
        intro h0
        rw [if_pos (by omega)]
      rw [hmod]
      generalize hq : (if u.CurrentPage - 1 < 0 then u.NumPages - 1 else u.CurrentPage - 1) = q
        at hnn hlt hzero
      obtain ⟨k, rfl⟩ := Int.eq_ofNat_of_zero_le hnn
      obtain ⟨v, hv, _, _, _, _, _, hpage, hidx, hfoc⟩ :=
        renderPage_layout
          { u with CurrentPage := (k : Int), CurrentIndex := (k : Int) * u.PageSize }
          k h4 rfl (by simp only; omega)
      refine ⟨v, ?_, hpage, ?_, ?_, ?_⟩
      · unfold prevPage
        rw [if_pos (by omega)]
        simp only [hq]
        exact hv
      · intro h0
        rw [hpage]
        exact hzero h0
      · rw [hidx, hpage]
        simp only [h4]
        split <;> omega
      · rw [hfoc, hidx, hpage]
        simp only [h4]
        split
        · congr 1; omega
        · congr 1; omega
  · intro h1
    constructor
    · unfold nextPage
      rw [if_neg (by omega)]
    · unfold prevPage
      rw [if_neg (by omega)]

/-- Witness of C7: ten views, page 2 of 3; the key `]` wraps to page 0 and
panel 0, the key `[` goes to page 1 and panel 4. -/
theorem C7_page_keys_wrap_witness :
    (∃ v, nextPage { initialState 10 with CurrentPage := 2, CurrentIndex := 9 } = some v
      ∧ v.CurrentPage = 0 ∧ v.CurrentIndex = 0)
    ∧ (∃ v, prevPage { initialState 10 with CurrentPage := 2, CurrentIndex := 9 } = some v
      ∧ v.CurrentPage = 1 ∧ v.CurrentIndex = 4) := by
  have h := (C7_page_keys_wrap { initialState 10 with CurrentPage := 2, CurrentIndex := 9 } 10
    rfl rfl rfl (by decide)).2.1 (by decide)
  obtain ⟨⟨v, hv, hp, hi, _⟩, ⟨w, hw, hq, _, hj, _⟩⟩ := h
  have e1 : ((2 : Int) + 1) % (initialState 10).NumPages = 0 := by decide
  have e2 : ((2 : Int) - 1) % (initialState 10).NumPages = 1 := by decide
  refine ⟨⟨v, hv, ?_, ?_⟩, ⟨w, hw, ?_, ?_⟩⟩
  · rw [hp]; exact e1
  · rw [hi, hp]; exact e1 ▸ rfl
  · rw [hq]; exact e2
  · rw [hj, hq]; exact e2 ▸ rfl

/-! ## Focus movement and the layout invariant -/

namespace ui

theorem wrap64_of_bounds (x : Int) (h1 : -(2 ^ 63) ≤ x) (h2 : x < 2 ^ 63) : wrap64 x = x := by
  unfold wrap64
  omega

/-- On a valid page `renderPage` returns a state that satisfies the invariant. -/
theorem renderPage_establishes (n : Nat) (u : AppUI) (hN : u.NumViews = n)
    (h4 : u.PageSize = 4) (hP : u.NumPages = numPagesOf n 4) (h0 : 0 ≤ u.CurrentPage)
    (hlt : u.CurrentPage * 4 < n) :
    ∃ v, renderPage u = some v ∧ LayoutInv n v ∧ v.CurrentPage = u.CurrentPage
      ∧ (u.CurrentPage * 4 ≤ u.CurrentIndex →
          u.CurrentIndex < min (u.CurrentPage * 4 + 4) n → v.CurrentIndex = u.CurrentIndex)
      ∧ v.Focus = some v.CurrentIndex := by
  obtain ⟨k, hk⟩ := Int.eq_ofNat_of_zero_le h0
  obtain ⟨v, hv, _, _, hvN, hv4, hvP, hpage, hidx, hfoc⟩ :=
    renderPage_layout u k h4 hk (by omega)
  rw [numPagesOf_four] at hP
  have hidx2 : u.CurrentPage * 4 ≤ v.CurrentIndex
      ∧ v.CurrentIndex < min (u.CurrentPage * 4 + 4) n := by
    rw [hidx, hN]
    split <;> omega
  refine ⟨v, hv,
    ⟨by omega, by omega, ?_, by omega, by omega, by omega, by omega, by omega, ?_⟩,
    hpage, ?_, hfoc⟩
  · rw [hvP, hP, numPagesOf_four]
  · rw [hpage]; exact hidx2.2
  · intro ha hb
    rw [hidx, hN, if_neg (by omega)]

theorem renderPage_inv (n : Nat) (u : AppUI) (h : LayoutInv n u) :
    ∃ v, renderPage u = some v ∧ LayoutInv n v := by
  obtain ⟨hN, h4, hP, _, _, h0, _, ha, hb⟩ := h
  obtain ⟨v, hv, hinv, _⟩ := renderPage_establishes n u hN h4 hP h0 (by omega)
  exact ⟨v, hv, hinv⟩

theorem nextPage_inv (n : Nat) (u : AppUI) (h : LayoutInv n u) :
    ∃ v, nextPage u = some v ∧ LayoutInv n v := by
  unfold nextPage
  split
  · rename_i h1
    obtain ⟨hN, h4, hP, _, _, h0, hp, _, _⟩ := h
    have hmod : Int.tmod (u.CurrentPage + 1) u.NumPages = (u.CurrentPage + 1) % u.NumPages :=
      Int.tmod_eq_emod (by omega) (by omega)
    have hnn : 0 ≤ (u.CurrentPage + 1) % u.NumPages := Int.emod_nonneg _ (by omega)
    have hlt : (u.CurrentPage + 1) % u.NumPages < u.NumPages := Int.emod_lt_of_pos _ (by omega)
    simp only [hmod]
    generalize (u.CurrentPage + 1) % u.NumPages = q at hnn hlt
    have hP4 := hP
    rw [numPagesOf_four] at hP4
    obtain ⟨v, hv, hinv, _⟩ :=
      renderPage_establishes n { u with CurrentPage := q, CurrentIndex := q * u.PageSize }
        hN h4 hP hnn (by simp only; omega)
    exact ⟨v, hv, hinv⟩
  · exact ⟨u, rfl, h⟩

theorem prevPage_inv (n : Nat) (u : AppUI) (h : LayoutInv n u) :
    ∃ v, prevPage u = some v ∧ LayoutInv n v := by
  unfold prevPage
  split
  · rename_i h1
    obtain ⟨hN, h4, hP, _, _, h0, hp, _, _⟩ := h
    have hnn : 0 ≤ (if u.CurrentPage - 1 < 0 then u.NumPages - 1 else u.CurrentPage - 1) := by
      split <;> omega
    have hlt : (if u.CurrentPage - 1 < 0 then u.NumPages - 1 else u.CurrentPage - 1)
        < u.NumPages := by
      split <;> omega
    simp only []
    generalize (if u.CurrentPage - 1 < 0 then u.NumPages - 1 else u.CurrentPage - 1) = q
      at hnn hlt
    have hP4 := hP
    rw [numPagesOf_four] at hP4
    obtain ⟨v, hv, hinv, _⟩ :=
      renderPage_establishes n { u with CurrentPage := q, CurrentIndex := q * u.PageSize }
        hN h4 hP hnn (by simp only; omega)
    exact ⟨v, hv, hinv⟩
  · exact ⟨u, rfl, h⟩

/-- What `switchFocus` does once the new index is known to be valid. -/
theorem switchFocus_result (u : AppUI) (d idx : Int) (h4 : u.PageSize = 4)
    (hidx : (if wrap64 (u.CurrentIndex + d) < 0 then (u.NumViews : Int) - 1
              else if wrap64 (u.CurrentIndex + d) ≥ u.NumViews then 0
              else wrap64 (u.CurrentIndex + d)) = idx)
    (h0 : 0 ≤ idx) (hlt : idx < u.NumViews) :
    ∃ v, switchFocus u d = some v ∧ v.NumViews = u.NumViews ∧ v.PageSize = u.PageSize
      ∧ v.NumPages = u.NumPages ∧ v.CurrentIndex = idx ∧ v.CurrentPage = idx / 4
      ∧ v.Focus = some idx := by
  have htd : Int.tdiv idx 4 = idx / 4 := Int.tdiv_eq_ediv h0 (by omega)
  have hps : (if u.PageSize > 0 then Int.tdiv idx u.PageSize else 0) = idx / 4 := by
    rw [h4, if_pos (by decide), htd]
  unfold switchFocus
  simp only [hidx, hps]
  split
  · obtain ⟨k, hk⟩ := Int.eq_ofNat_of_zero_le (show 0 ≤ idx / 4 by omega)
    obtain ⟨v, hv, _, _, hvN, hv4, hvP, hpage, hvi, hfoc⟩ :=
      renderPage_layout { u with CurrentIndex := idx, CurrentPage := idx / 4 } k h4 hk
        (by simp only; omega)
    have hi : v.CurrentIndex = idx := by
      rw [hvi]
      simp only
      rw [if_neg (by omega)]
    exact ⟨v, hv, hvN, hv4, hvP, hi, hpage, by rw [hfoc, hi]⟩
  · rename_i hsame
    have hsame2 : idx / 4 = u.CurrentPage := by
      by_contra hne
      exact hsame hne
    have hva : viewAt u idx = some idx := by
      unfold viewAt
      rw [if_pos (by omega)]
    rw [hva]
    exact ⟨_, rfl, rfl, rfl, rfl, rfl, hsame2.symm, rfl⟩

theorem switchFocus_inv (n : Nat) (u : AppUI) (d : Int) (h : LayoutInv n u) :
    ∃ v, switchFocus u d = some v ∧ LayoutInv n v := by
  obtain ⟨hN, h4, hP, hi0, hi1, _⟩ := h
  obtain ⟨v, hv, hvN, hv4, hvP, hvi, hvp, _⟩ :=
    switchFocus_result u d _ h4 rfl (by split_ifs <;> omega) (by split_ifs <;> omega)
  have hr0 : 0 ≤ v.CurrentIndex := by rw [hvi]; split_ifs <;> omega
  have hr1 : v.CurrentIndex < n := by rw [hvi]; split_ifs <;> omega
  have hP4 := hP
  rw [numPagesOf_four] at hP4
  refine ⟨v, hv, by omega, by omega, by rw [hvP, hP], hr0, hr1, ?_, ?_, ?_, ?_⟩
  · rw [hvp, ← hvi]; omega
  · rw [hvp, ← hvi, hvP]; omega
  · rw [hvp, ← hvi]; omega
  · rw [hvp, ← hvi]; omega

theorem NewAppUI_inv (n : Nat) (hn : 1 ≤ n) : ∃ u, NewAppUI n = some u ∧ LayoutInv n u := by
  obtain ⟨v, hv, hinv, _⟩ :=
    renderPage_establishes n (initialState n) rfl rfl rfl (by simp [initialState])
      (by simp [initialState]; omega)
  exact ⟨v, hv, hinv⟩

theorem runOps_inv (n : Nat) (ops : List NavOp) :
    ∀ u : AppUI, LayoutInv n u → ∃ v, runOps u ops = some v ∧ LayoutInv n v := by
  induction ops with
  | nil => intro u h; exact ⟨u, rfl, h⟩
  | cons op rest ih =>
    intro u h
    have hstep : ∃ w, applyOp u op = some w ∧ LayoutInv n w := by
      cases op with
      | prevPage => exact prevPage_inv n u h
      | nextPage => exact nextPage_inv n u h
      | switchFocus d => exact switchFocus_inv n u d h
      | renderPage => exact renderPage_inv n u h
    obtain ⟨w, hw, hinv⟩ := hstep
    obtain ⟨v, hv, hinv2⟩ := ih w hinv
    refine ⟨v, ?_, hinv2⟩
    unfold runOps
    rw [hw, Option.some_bind]
    exact hv

end ui

/-- C8. With `N` views, a focused index `f` in `[0, N)` whose page `f / 4` is the
current page, and `d` one of `+1`, `-1` with `f + d` in `[0, N)`:
`switchFocus(d)` leaves the focused index at `f + d`, gives that view the
focus, and the current page is the page of `f + d`, which means it changes
when `(f + d) / 4` differs from the current page and stays otherwise. -/
theorem C8_switch_focus_steps_by_one (u : AppUI) (N : Nat) (f d : Int)
    (hN : u.NumViews = N) (hword : (N : Int) < 2 ^ 63) (h4 : u.PageSize = 4)
    (hf : u.CurrentIndex = f) (_hfr : 0 ≤ f ∧ f < N) (hpage : u.CurrentPage = f / 4)
    (hd : d = 1 ∨ d = -1) (hfd : 0 ≤ f + d ∧ f + d < N) :
    ∃ v, switchFocus u d = some v
      ∧ v.CurrentIndex = f + d
      ∧ v.CurrentPage = (f + d) / 4
      ∧ ((f + d) / 4 = f / 4 → v.CurrentPage = u.CurrentPage)
      ∧ ((f + d) / 4 ≠ f / 4 → v.CurrentPage ≠ u.CurrentPage)
      ∧ (v.CurrentIndex = f + 1 ∨ v.CurrentIndex = f - 1)
      ∧ v.Focus = some (f + d) := by
  have hw : wrap64 (u.CurrentIndex + d) = f + d := by
    rw [hf]
    exact wrap64_of_bounds _ (by omega) (by omega)
  obtain ⟨v, hv, _, _, _, hi, hp, hfoc⟩ :=
    switchFocus_result u d (f + d) h4
      (by rw [hw, hN, if_neg (by omega), if_neg (by omega)]) hfd.1 (by rw [hN]; exact hfd.2)
  refine ⟨v, hv, hi, hp, ?_, ?_, ?_, hfoc⟩
  · intro h; rw [hp, h, hpage]
  · intro h; rw [hp, hpage]; exact h
  · rw [hi]
    rcases hd with h | h
    · left; rw [h]
    · right; rw [h]; rfl

/-- Witness of C8: ten views, focus on panel 3 of page 0; `switchFocus(+1)`
puts the focus on panel 4, on page 1. -/
theorem C8_switch_focus_steps_by_one_witness :
    ∃ v, switchFocus { initialState 10 with CurrentIndex := 3 } 1 = some v
      ∧ v.CurrentIndex = 4 ∧ v.CurrentPage = 1 ∧ v.Focus = some 4 := by
  obtain ⟨v, hv, hi, hp, _, _, _, hfoc⟩ :=
    C8_switch_focus_steps_by_one { initialState 10 with CurrentIndex := 3 } 10 3 1
      rfl (by decide) rfl rfl (by decide) (by decide) (by decide) (by decide)
  exact ⟨v, hv, hi, hp, hfoc⟩

/-- C9. For `N ≥ 1` views, `NewAppUI` followed by any sequence of the keys `[`
and `]`, of `switchFocus(d)` with any integer `d`, and of `renderPage` runs
without an index panic and ends in a state with `0 ≤ CurrentIndex < N`,
`0 ≤ CurrentPage < NumPages`, `NumPages = ⌈N / 4⌉` and
`CurrentPage * 4 ≤ CurrentIndex < min (CurrentPage * 4 + 4) N`; so the lookup
of `TextViews[CurrentIndex]` and `Tailers[CurrentIndex]` is in range. -/
theorem C9_layout_invariant (N : Nat) (hN : 1 ≤ N) (ops : List NavOp) :
    ∃ u, (NewAppUI N).bind (fun u0 => runOps u0 ops) = some u
      ∧ u.NumViews = N
      ∧ 0 ≤ u.CurrentIndex ∧ u.CurrentIndex < N
      ∧ 0 ≤ u.CurrentPage ∧ u.CurrentPage < u.NumPages
      ∧ u.NumPages = ⌈(N : ℚ) / 4⌉
      ∧ u.CurrentPage * 4 ≤ u.CurrentIndex
      ∧ u.CurrentIndex < min (u.CurrentPage * 4 + 4) N
      ∧ viewAt u u.CurrentIndex = some u.CurrentIndex := by
  obtain ⟨u0, hu0, hinv0⟩ := NewAppUI_inv N hN
  obtain ⟨u, hu, hN', h4, hP, hi0, hi1, hp0, hp1, ha, hb⟩ := runOps_inv N ops u0 hinv0
  refine ⟨u, ?_, hN', hi0, hi1, hp0, hp1, ?_, ha, hb, ?_⟩
  · rw [hu0, Option.some_bind]
    exact hu
  · rw [hP, numPagesOf_ceil]
  · unfold viewAt
    rw [if_pos (by omega)]

/-- Witness of C9: ten views and a run that crosses pages in both directions
and steps over both ends of the list. -/
theorem C9_layout_invariant_witness :
    ∃ u, (NewAppUI 10).bind (fun u0 => runOps u0
        [NavOp.switchFocus (-1), NavOp.switchFocus 1, NavOp.nextPage, NavOp.prevPage,
          NavOp.prevPage, NavOp.switchFocus 7, NavOp.renderPage]) = some u
      ∧ 0 ≤ u.CurrentIndex ∧ u.CurrentIndex < 10
      ∧ viewAt u u.CurrentIndex = some u.CurrentIndex := by
  obtain ⟨u, hu, _, h0, h1, _, _, _, _, _, hv⟩ :=
    C9_layout_invariant 10 (by decide)
      [NavOp.switchFocus (-1), NavOp.switchFocus 1, NavOp.nextPage, NavOp.prevPage,
        NavOp.prevPage, NavOp.switchFocus 7, NavOp.renderPage]
  exact ⟨u, hu, h0, by exact_mod_cast h1, hv⟩

/-! ## The mutex and file operations -/

namespace tlog

theorem saveLoop_fileOps (quoteMeta : String → String) (fs : FileOutcome) (k : Nat)
    (entries : List (Int × String)) :
    ∀ e ∈ (saveLoop quoteMeta fs k entries).1, e.isFileOp = true := by
  induction entries generalizing k with
  | nil => intro e he; simp [saveLoop] at he
  | cons entry rest ih =>
    intro e he
    unfold saveLoop at he
    split at he
    · simp only [List.mem_singleton] at he
      rw [he]; rfl
    · simp only [List.mem_cons] at he
      rcases he with he | he
      · rw [he]; rfl
      · exact ih (k + 1) e he

/-- Every file operation scanned while the mutex is held is a violation. -/
theorem noFileOpWhileLocked_held (es : List Event) (rest : List Event)
    (hes : ∀ e ∈ es, e.isFileOp = true) (hne : es ≠ []) :
    noFileOpWhileLocked true (es ++ rest) = false := by
  cases es with
  | nil => exact absurd rfl hne
  | cons e es' =>
    have he := hes e (List.mem_cons_self _ _)
    cases e with
    | Lock => simp [Event.isFileOp] at he
    | Unlock => simp [Event.isFileOp] at he
    | Create p => simp [noFileOpWhileLocked]
    | WriteString w => simp [noFileOpWhileLocked]
    | Flush => simp [noFileOpWhileLocked]
    | Close => simp [noFileOpWhileLocked]

/-- The shape of every run of `SaveBookmarks`: `Lock`, then file operations
only, the first of them `Create`, then `Unlock`. -/
theorem SaveBookmarksEvents_shape (t : Tailer) (entries : List (Int × String))
    (quoteMeta : String → String) (fs : FileOutcome) (path : String) :
    ∃ ops : List Event,
      (SaveBookmarksEvents t entries quoteMeta fs path).1
        = Event.Lock :: (Event.Create path :: ops) ++ [Event.Unlock]
      ∧ ∀ e ∈ ops, e.isFileOp = true := by
  unfold SaveBookmarksEvents
  split
  · exact ⟨[], rfl, by simp⟩
  · simp only []
    split
    · refine ⟨(saveLoop quoteMeta fs 0 entries).1 ++ [Event.Close], by simp, ?_⟩
      intro e he
      rw [List.mem_append] at he
      rcases he with he | he
      · exact saveLoop_fileOps quoteMeta fs 0 entries e he
      · simp only [List.mem_singleton] at he
        rw [he]; rfl
    · refine ⟨(saveLoop quoteMeta fs 0 entries).1 ++ [Event.Flush, Event.Close], by simp, ?_⟩
      intro e he
      rw [List.mem_append] at he
      rcases he with he | he
      · exact saveLoop_fileOps quoteMeta fs 0 entries e he
      · simp only [List.mem_cons, List.mem_singleton, List.not_mem_nil, or_false] at he
        rcases he with he | he
        · rw [he]; rfl
        · rw [he]; rfl

end tlog

/-- C10, as stated, fails for `SaveBookmarks`: with the single bookmark
`3 ↦ "hello"` and a file system on which every call succeeds, the run is
`Lock, Create, WriteString, Flush, Close, Unlock`, so the file is created,
written, flushed and closed between `Lock` and its `Unlock`. -/
theorem C10_save_bookmarks_holds_lock_counterexample :
    (SaveBookmarksEvents
        (AddBookmark (newTailerState "app.log") 3 "hello") [(3, "hello")] id
        { createFails := false, writeFails := fun _ => false, flushFails := false }
        "bookmarks.txt").1
      = [Event.Lock, Event.Create "bookmarks.txt", Event.WriteString "hello\n",
          Event.Flush, Event.Close, Event.Unlock]
    ∧ noFileOpWhileLocked false
        (SaveBookmarksEvents
          (AddBookmark (newTailerState "app.log") 3 "hello") [(3, "hello")] id
          { createFails := false, writeFails := fun _ => false, flushFails := false }
          "bookmarks.txt").1 = false := by
  constructor <;> decide

/-- C10, amended. `ExportLines` takes the mutex only inside `GetLines`, to copy
the lines out, releases it before it filters, and performs no file operation:
its run is `Lock, Unlock`. `SaveBookmarks` takes the mutex on entry and
releases it by the deferred `Unlock` on return: every run is `Lock`, then
`Create` and the other file operations of the run, then `Unlock`, so all its
file operations happen while the mutex is held. -/
theorem C10_lock_scope_of_export_and_save (t : Tailer) (filter : Option (String → Bool))
    (entries : List (Int × String)) (quoteMeta : String → String) (fs : FileOutcome)
    (path : String) :
    ExportLinesEvents t filter = [Event.Lock, Event.Unlock]
    ∧ (∀ e ∈ ExportLinesEvents t filter, e.isFileOp = false)
    ∧ noFileOpWhileLocked false (ExportLinesEvents t filter) = true
    ∧ (∃ ops : List Event,
        (SaveBookmarksEvents t entries quoteMeta fs path).1
          = Event.Lock :: (Event.Create path :: ops) ++ [Event.Unlock]
        ∧ ∀ e ∈ ops, e.isFileOp = true)
    ∧ noFileOpWhileLocked false (SaveBookmarksEvents t entries quoteMeta fs path).1 = false := by
  obtain ⟨ops, hshape, hops⟩ := SaveBookmarksEvents_shape t entries quoteMeta fs path
  refine ⟨rfl, ?_, rfl, ⟨ops, hshape, hops⟩, ?_⟩
  · intro e he
    simp only [ExportLinesEvents, GetLinesEvents, List.mem_cons, List.mem_singleton,
      List.not_mem_nil, or_false] at he
    rcases he with he | he
    · rw [he]; rfl
    · rw [he]; rfl
  · rw [hshape]
    show noFileOpWhileLocked true ((Event.Create path :: ops) ++ [Event.Unlock]) = false
    apply noFileOpWhileLocked_held
    · intro e he
      rw [List.mem_cons] at he
      rcases he with he | he
      · rw [he]; rfl
      · exact hops e he
    · simp

end HyperbyteTail
